import Mathlib

/-
  Verification development for the canvas cache-synchronization and
  pixel-write subsystem of the pixels repository (src/pixels/canvas.py).

  The embedding models:
    - the singleton cache_state record (last_modified, last_synced, sync_lock),
    - the redis line cache as a list of byte rows,
    - bytearray slice assignment as list splicing,
    - Canvas._try_acquire_lock, Canvas._populate_cache,
      Canvas.is_cache_out_of_date, Canvas.sync_cache, Canvas.set_pixel and
      Canvas.get_pixels as pure functions over an explicit machine state,
      with loops driven by fuel and database responses/interleaved writes of
      other processes supplied by an explicit environment schedule.

  Timestamps are naturals (milliseconds); now() is the machine's time field.
  The 10 second deadlock timeout of canvas.py (KEY_TIMEOUT) is 10000 ms and
  the 0.1 s poll sleep is 100 ms.
-/

namespace Pixels

/-- Canvas width, constants.py. -/
def width : Nat := 160

/-- Canvas height, constants.py. -/
def height : Nat := 90

/-- KEY_TIMEOUT of canvas.py, in milliseconds (source value: 10 seconds). -/
def KEY_TIMEOUT : Nat := 10000

/-- The singleton cache_state row: two timestamps and the nullable lock. -/
structure CacheState where
  last_modified : Nat
  last_synced : Nat
  sync_lock : Option Nat
  deriving DecidableEq, Repr

/-- One row of the current_pixel projection: coordinates and decoded color
bytes (bytes.fromhex of the stored hex string). -/
structure Rec where
  x : Nat
  y : Nat
  rgb : List Nat
  deriving DecidableEq, Repr

/-- One row of pixel_history as inserted by set_pixel. -/
structure HistRec where
  x : Nat
  y : Nat
  rgb : List Nat
  user_id : Nat
  deleted : Bool
  deriving DecidableEq, Repr

/-- A complete current_pixel projection for the 160 x 90 canvas, ordered by
(x, y) exactly as `SELECT x, y, rgb FROM current_pixel ORDER BY x, y`
returns it: the record at position i is the cell (i / height, i % height);
cell (0, 1) (position 1) is red, every other cell is black. -/
def cexProjection : List Rec :=
  (List.range (width * height)).map
    (fun i =>
      { x := i / height, y := i % height,
        rgb := if i = 1 then [255, 0, 0] else [0, 0, 0] })

/-- Python bytearray slice assignment buf[a:b] = v as a list operation:
the elements of positions a..b-1 are replaced by v (take/drop clamp exactly
like Python slice bounds do). -/
def spliceAt (a b : Nat) (v buf : List Nat) : List Nat :=
  buf.take a ++ v ++ buf.drop b

/-- Canvas._try_acquire_lock: atomically set sync_lock to now() and report
whether the previous value was NULL. -/
def try_acquire_lock (now : Nat) (cs : CacheState) : Bool × CacheState :=
  (cs.sync_lock.isNone, { cs with sync_lock := some now })

/-- A sequence of callers hitting _try_acquire_lock one after the other (the
row lock serializes them); returns how many of them received True, and the
final cache state. -/
def race_acquire (times : List Nat) (cs : CacheState) : Nat × CacheState :=
  match times with
  | [] => (0, cs)
  | t :: rest =>
    let r := try_acquire_lock t cs
    let p := race_acquire rest r.2
    ((if r.1 then 1 else 0) + p.1, p.2)

/-- Operations performed against the store and the cache, recorded in
chronological order. -/
inductive Op where
  | readCacheState
  | acquireLock (prev : Option Nat)
  | reclaimTry (won : Bool)
  | setLockNow
  | releaseLock
  | setLastSynced
  | readCurrentPixels
  | insertHistory
  | redisGet (l : Nat)
  | redisSet (l : Nat)
  deriving DecidableEq, Repr

/-- A write that another process may perform on the shared cache_state row
between two of this process's database operations (passW means no
interference at that point). -/
inductive EnvWrite where
  | passW
  | setLM (v : Nat)
  | setLS (v : Nat)
  | setLock (v : Option Nat)
  deriving DecidableEq, Repr

/-- The state visible to one process: the shared cache_state row, the
current_pixel projection as the store would return it (ordered by (x, y)),
the pixel_history relation, the redis line cache, the current time in
milliseconds, the interference schedule (one entry consumed per database
operation; an empty schedule means a quiet environment), the pending
multi_exec result lists (one consumed per rebuild batch; when exhausted all
writes succeed), and the trace of performed operations. -/
structure Machine where
  cache_state : CacheState
  projection : List Rec
  history : List HistRec
  lines : List (List Nat)
  time : Nat
  sched : List EnvWrite
  redisResults : List (List Bool)
  trace : List Op
  deriving DecidableEq, Repr

def applyEnvWrite (cs : CacheState) : EnvWrite → CacheState
  | .passW => cs
  | .setLM v => { cs with last_modified := v }
  | .setLS v => { cs with last_synced := v }
  | .setLock v => { cs with sync_lock := v }

/-- Consume one step of the interference schedule (applied before each
database operation). -/
def envStep (m : Machine) : Machine :=
  match m.sched with
  | [] => m
  | w :: rest => { m with cache_state := applyEnvWrite m.cache_state w, sched := rest }

/-- Record an operation in the trace. -/
def tr (m : Machine) (o : Op) : Machine :=
  { m with trace := m.trace ++ [o] }

/-- SELECT last_modified, last_synced, sync_lock FROM cache_state. -/
def readCacheStateOp (m : Machine) : CacheState × Machine :=
  let m := envStep m
  (m.cache_state, tr m .readCacheState)

/-- Canvas.is_cache_out_of_date: last_modified > last_synced. -/
def is_cache_out_of_dateOp (m : Machine) : Bool × Machine :=
  let r := readCacheStateOp m
  (decide (r.1.last_modified > r.1.last_synced), r.2)

/-- Canvas._try_acquire_lock as a machine step. -/
def try_acquireOp (m : Machine) : Bool × Machine :=
  let m := envStep m
  let r := try_acquire_lock m.time m.cache_state
  (r.1, tr { m with cache_state := r.2 } (.acquireLock m.cache_state.sync_lock))

/-- UPDATE cache_state SET sync_lock = NULL (the finally block). -/
def releaseOp (m : Machine) : Machine :=
  let m := envStep m
  tr { m with cache_state := { m.cache_state with sync_lock := none } } .releaseLock

/-- The conditional reclaim: UPDATE cache_state SET sync_lock = now() WHERE
now() - sync_lock > interval KEY_TIMEOUT; returns whether exactly one row
was affected. -/
def reclaimCondOp (m : Machine) : Bool × Machine :=
  let m := envStep m
  match m.cache_state.sync_lock with
  | some t =>
    if m.time - t > KEY_TIMEOUT then
      (true, tr { m with cache_state := { m.cache_state with sync_lock := some m.time } }
        (.reclaimTry true))
    else (false, tr m (.reclaimTry false))
  | none => (false, tr m (.reclaimTry false))

/-- The unconditional UPDATE cache_state SET sync_lock = now() that runs
right after a won reclaim. -/
def setLockNowOp (m : Machine) : Machine :=
  let m := envStep m
  tr { m with cache_state := { m.cache_state with sync_lock := some m.time } } .setLockNow

/-- UPDATE cache_state SET last_synced = now(). -/
def setLastSyncedOp (m : Machine) : Machine :=
  let m := envStep m
  tr { m with cache_state := { m.cache_state with last_synced := m.time } } .setLastSynced

/-- The inner loop of Canvas._populate_cache: for position, record in
enumerate(chunk): line_bytes[position*3:(position+1)*3] = record rgb bytes. -/
def fillFrom (buf : List Nat) (p : Nat) (chunk : List Rec) : List Nat :=
  match chunk with
  | [] => buf
  | r :: rest => fillFrom (spliceAt (3 * p) (3 * p + 3) r.rgb buf) (p + 1) rest

/-- One cache line of the rebuild: a zeroed bytearray of 3*width bytes filled
from records[line*width:(line+1)*width]. -/
def fillLine (w : Nat) (records : List Rec) (line : Nat) : List Nat :=
  fillFrom (List.replicate (3 * w) 0) 0 ((records.drop (line * w)).take w)

/-- All height cache lines written by the rebuild. -/
def populateLines (w h : Nat) (records : List Rec) : List (List Nat) :=
  (List.range h).map (fillLine w records)

/-- Effect of the multi_exec batch on the line cache: each of the h queued
SETs lands exactly when its result flag is true. -/
def applyBatch (h : Nat) (old new : List (List Nat)) (flags : List Bool) :
    List (List Nat) :=
  (List.range h).map (fun l => if flags.getD l false then new.getD l [] else old.getD l [])

/-- Canvas._populate_cache: read the projection, build the h line buffers,
execute the batch, and only if every result is truthy advance last_synced;
otherwise the IOError path is taken (returned as false). -/
def populateOp (w h : Nat) (m : Machine) : Bool × Machine :=
  let m := envStep m
  let records := m.projection
  let m := tr m .readCurrentPixels
  let newLines := populateLines w h records
  let flags := m.redisResults.headD (List.replicate h true)
  let m := { m with redisResults := m.redisResults.tail }
  let m := { m with lines := applyBatch h m.lines newLines flags,
                    trace := m.trace ++ (List.range h).map Op.redisSet }
  if flags.all (fun b => b) then
    (true, setLastSyncedOp m)
  else
    (false, m)

/-- Result of a canvas operation: success or a surfaced error, together with
the state in which the call ended. -/
inductive Res where
  | ok (m : Machine)
  | err (m : Machine)
  deriving DecidableEq, Repr

/-- The waiter loop of Canvas.sync_cache: poll sync_lock every 100 ms;
break on NULL (false = observed free), or win the conditional reclaim,
refresh the lock and break with lock_cleared = true. -/
def waitPollM (fuel : Nat) (m : Machine) : Option (Bool × Machine) :=
  match fuel with
  | 0 => none
  | fuel + 1 =>
    let r := readCacheStateOp m
    match r.1.sync_lock with
    | none => some (false, r.2)
    | some _ =>
      let c := reclaimCondOp r.2
      if c.1 then
        some (true, setLockNowOp c.2)
      else
        waitPollM fuel { c.2 with time := c.2.time + 100 }

/-- Canvas.sync_cache: while the cache is out of date, either acquire the
lock (or rely on a won reclaim) and rebuild, releasing the lock in the
finally block, or wait on the lock. Fuel bounds the loops; none means the
fuel ran out. -/
def syncCacheM (w h : Nat) (fuel : Nat) (lock_cleared : Bool) (m : Machine) :
    Option Res :=
  match fuel with
  | 0 => none
  | fuel + 1 =>
    let s := is_cache_out_of_dateOp m
    if s.1 then
      let a := try_acquireOp s.2
      if a.1 || lock_cleared then
        let p := populateOp w h a.2
        let m2 := releaseOp p.2
        if p.1 then
          syncCacheM w h fuel false m2
        else
          some (.err m2)
      else
        match waitPollM fuel a.2 with
        | none => none
        | some (cleared, m2) => syncCacheM w h fuel cleared m2
    else
      some (.ok s.2)

/-- Canvas.set_pixel after validation: sync the cache, read line y, patch
the 3 bytes at column x, then in one transaction insert the history row
(which advances last_modified; modelled from the spec: the trigger that
advances last_modified on insert is part of the repository's DDL, not under
src/), write the patched line back and advance last_synced. -/
def set_pixelM (w h fuel : Nat) (m : Machine) (x y : Nat) (rgb : List Nat)
    (user_id : Nat) : Option Res :=
  match syncCacheM w h fuel false m with
  | none => none
  | some (.err m) => some (.err m)
  | some (.ok m) =>
    let line := m.lines.getD y []
    let m := tr m (.redisGet y)
    let line2 := spliceAt (3 * x) (3 * x + 3) rgb line
    let m := envStep m
    let m := tr { m with
                  history := m.history ++ [⟨x, y, rgb, user_id, false⟩],
                  cache_state := { m.cache_state with last_modified := m.time } }
      .insertHistory
    let m := tr { m with lines := m.lines.set y line2 } (.redisSet y)
    some (.ok (setLastSyncedOp m))

/-- The pure value of Canvas.get_pixels: a zeroed buffer of width*height*3
bytes receives each cache line at its row offset. -/
def get_pixels_bytes (w h : Nat) (lines : List (List Nat)) : List Nat :=
  (List.range h).foldl
    (fun buf l => spliceAt (l * (3 * w)) ((l + 1) * (3 * w)) (lines.getD l []) buf)
    (List.replicate (w * h * 3) 0)

/-- Canvas.get_pixels as a machine step: the loop reads every line from
redis and splices it into the buffer. -/
def get_pixelsM (w h : Nat) (m : Machine) : List Nat × Machine :=
  (List.range h).foldl
    (fun p l =>
      (spliceAt (l * (3 * w)) ((l + 1) * (3 * w)) (p.2.lines.getD l []) p.1,
       tr p.2 (.redisGet l)))
    (List.replicate (w * h * 3) 0, m)

/-- Errors surfaced by the endpoints: an I/O failure or a validation
rejection. -/
inductive CanvasErr where
  | ioFail
  | validationFail
  deriving DecidableEq, Repr

/-- Modelled from the spec: the request validation layer (the pixels.models
request models, part of the repository but not under src/) checks
0 ≤ x < width, 0 ≤ y < height and that rgb is a well-formed 3-byte color,
and rejects the request otherwise. -/
def valid_pixel (w h : Nat) (x y : Int) (rgb : List Nat) : Bool :=
  decide (0 ≤ x) && decide (x < (w : Int)) && decide (0 ≤ y) &&
    decide (y < (h : Int)) && decide (rgb.length = 3) && rgb.all (fun b => b < 256)

/-- Result of an endpoint-level set_pixel: success, I/O error, or a
validation rejection, each with the state the call ended in. -/
inductive WriteRes where
  | ok (m : Machine)
  | err (e : CanvasErr) (m : Machine)
  deriving DecidableEq, Repr

/-- Modelled from the spec: the set_pixel entry point rejects invalid input
before any store or cache access (fail fast), and otherwise runs
Canvas.set_pixel. The validation and routing live in the repository's
request layer, not under src/. -/
def set_pixel_endpoint (w h fuel : Nat) (m : Machine) (x y : Int)
    (rgb : List Nat) (user_id : Nat) : Option WriteRes :=
  if valid_pixel w h x y rgb then
    match set_pixelM w h fuel m x.toNat y.toNat rgb user_id with
    | none => none
    | some (.ok m) => some (.ok m)
    | some (.err m) => some (.err .ioFail m)
  else
    some (.err .validationFail m)

/-- Result of an endpoint-level board read. -/
inductive ReadRes where
  | ok (buf : List Nat) (m : Machine)
  | err (m : Machine)
  deriving DecidableEq, Repr

/-- Modelled from the spec: the board-read entry point calls the cache
synchronizer first to guarantee freshness and then reads the whole board
(the routing layer that composes sync_cache with Canvas.get_pixels is part
of the repository but not under src/; Canvas.get_pixels itself takes no
store connection, so the sync step necessarily happens in its caller). -/
def get_pixels_endpoint (w h fuel : Nat) (m : Machine) : Option ReadRes :=
  match syncCacheM w h fuel false m with
  | none => none
  | some (.err m) => some (.err m)
  | some (.ok m) =>
    let r := get_pixelsM w h m
    some (.ok r.1 r.2)

/-- The store/cache operations of one successful rebuild: read the
projection, then the h batched line writes. -/
def rebuildOps (h : Nat) : List Op :=
  Op.readCurrentPixels :: (List.range h).map Op.redisSet

/-- The full operation sequence of a sync() pass that finds the cache stale,
acquires the free lock, rebuilds, releases, and re-checks. -/
def syncPassOps (h : Nat) : List Op :=
  [Op.readCacheState, Op.acquireLock none] ++ rebuildOps h ++
    [Op.setLastSynced, Op.releaseLock, Op.readCacheState]

/-- A small well-formed quiet state (2 x 2 canvas line sizes) used to
instantiate theorems at concrete inputs. -/
def sampleMachine : Machine :=
  { cache_state := { last_modified := 5, last_synced := 10, sync_lock := none },
    projection :=
      [{ x := 0, y := 0, rgb := [1, 1, 1] }, { x := 0, y := 1, rgb := [2, 2, 2] },
       { x := 1, y := 0, rgb := [3, 3, 3] }, { x := 1, y := 1, rgb := [4, 4, 4] }],
    history := [],
    lines := [[1, 2, 3, 4, 5, 6], [7, 8, 9, 10, 11, 12]],
    time := 100,
    sched := [],
    redisResults := [],
    trace := [] }

/-- Starting state of the lock-leak execution: the cache is stale, the lock
is held by a crashed process (timestamp 0) and the clock is at 20000 ms.
The schedule is quiet during the acquire attempt and the whole poll phase
(207 database operations) and then, exactly between the won reclaim and the
staleness re-check, a concurrent writer commits `UPDATE cache_state SET
last_synced = now()` (the last step of its own set_pixel transaction). -/
def leakStart : Machine :=
  { cache_state := { last_modified := 2, last_synced := 1, sync_lock := some 0 },
    projection := [{ x := 0, y := 0, rgb := [9, 9, 9] }],
    history := [],
    lines := [[0, 0, 0]],
    time := 20000,
    sched := List.replicate 207 .passW ++ [.setLS 999999],
    redisResults := [],
    trace := [] }

/-- A stale quiet state whose next rebuild batch has one failing write. -/
def staleFailMachine : Machine :=
  { sampleMachine with
    cache_state := { last_modified := 10, last_synced := 5, sync_lock := none },
    redisResults := [[false, true]] }

/-- A stale quiet state whose rebuild succeeds. -/
def staleOkMachine : Machine :=
  { sampleMachine with
    cache_state := { last_modified := 10, last_synced := 5, sync_lock := none } }

/-- A stale quiet state whose lock is held by a crashed owner (timestamp 0)
and never released; the clock is at 20000 ms. -/
def staleHeldMachine : Machine :=
  { sampleMachine with
    cache_state := { last_modified := 10, last_synced := 5, sync_lock := some 0 },
    time := 20000 }

/-- Checks the outcome of the leak execution: sync_cache returned normally,
the trace shows this process became the owner through a won reclaim and
never ran the release, and sync_lock is still set. -/
def leakCheck (r : Option Res) : Bool :=
  match r with
  | some (.ok m) =>
    m.cache_state.sync_lock.isSome && m.trace.contains (.reclaimTry true) &&
      !(m.trace.contains .releaseLock)
  | _ => false

theorem spliceAt_length (a : Nat) (v buf : List Nat)
    (h : a + v.length ≤ buf.length) :
    (spliceAt a (a + v.length) v buf).length = buf.length := by
  have ha : a ≤ buf.length := le_trans (Nat.le_add_right _ _) h
  simp [spliceAt, Nat.min_eq_left ha]
  omega

/-- Splicing leaves every element on the left of the spliced region alone. -/
theorem take_spliceAt (a b : Nat) (v buf : List Nat) (ha : a ≤ buf.length) :
    (spliceAt a b v buf).take a = buf.take a := by
  rw [spliceAt, List.append_assoc, List.take_append_eq_append_take]
  simp [Nat.min_eq_left ha, Nat.sub_eq_zero_of_le (Nat.le_refl a), List.take_of_length_le]

theorem length_join_uniform (c : Nat) :
    ∀ (L : List (List Nat)), (∀ v ∈ L, v.length = c) → L.flatten.length = L.length * c := by
  intro L
  induction L with
  | nil => intro _; simp
  | cons v rest ih =>
    intro hu
    have hv : v.length = c := hu v (List.mem_cons_self v rest)
    have hr := ih (fun x hx => hu x (List.mem_cons_of_mem v hx))
    simp [List.flatten_cons, hv, hr, Nat.succ_mul, Nat.add_comm]

/-- Slicing three bytes out of the concatenation of 3-byte colors recovers
one color. -/
theorem join_uniform_slice :
    ∀ (L : List (List Nat)) (p : Nat), (∀ v ∈ L, v.length = 3) → p < L.length →
      (L.flatten.drop (3 * p)).take 3 = L.getD p [] := by
  intro L
  induction L with
  | nil => intro p _ hp; simp at hp
  | cons v rest ih =>
    intro p hu hp
    have hv : v.length = 3 := hu v (List.mem_cons_self v rest)
    cases p with
    | zero =>
      have hterm : v.take 3 = v := List.take_of_length_le (by omega)
      simp only [Nat.mul_zero, List.drop_zero, List.flatten_cons, List.getD_cons_zero]
      rw [List.take_append_eq_append_take, hterm, hv]
      simp
    | succ p =>
      have hrest := ih p (fun x hx => hu x (List.mem_cons_of_mem v hx))
        (by simpa using Nat.lt_of_succ_lt_succ hp)
      simp only [List.flatten_cons, List.getD_cons_succ]
      rw [List.drop_append_eq_append_drop, hv]
      have h1 : 3 * (p + 1) - 3 = 3 * p := by omega
      have h2 : v.drop (3 * (p + 1)) = [] := by
        apply List.drop_eq_nil_of_le
        omega
      rw [h1, h2, List.nil_append, hrest]

/-- The filling loop of _populate_cache replaces the region that starts at
byte 3*p with the concatenated colors of the chunk and keeps everything
around it. -/
theorem fillFrom_eq :
    ∀ (chunk : List Rec) (buf : List Nat) (p : Nat),
      (∀ r ∈ chunk, r.rgb.length = 3) → 3 * p + 3 * chunk.length ≤ buf.length →
      fillFrom buf p chunk =
        buf.take (3 * p) ++ (chunk.map Rec.rgb).flatten ++
          buf.drop (3 * p + 3 * chunk.length) := by
  intro chunk
  induction chunk with
  | nil =>
    intro buf p _ _
    simp [fillFrom, List.take_append_drop]
  | cons r rest ih =>
    intro buf p hu hlen
    have hr : r.rgb.length = 3 := hu r (List.mem_cons_self r rest)
    have hp3 : 3 * p + 3 ≤ buf.length := by
      simp only [List.length_cons] at hlen
      omega
    have hbuf' :
        (spliceAt (3 * p) (3 * p + 3) r.rgb buf).length = buf.length := by
      have := spliceAt_length (3 * p) r.rgb buf (by omega)
      rw [hr] at this
      simpa [hr] using this
    have hstep :
        spliceAt (3 * p) (3 * p + 3) r.rgb buf =
          buf.take (3 * p) ++ r.rgb ++ buf.drop (3 * p + 3) := rfl
    have hrec := ih (spliceAt (3 * p) (3 * p + 3) r.rgb buf) (p + 1)
      (fun x hx => hu x (List.mem_cons_of_mem r hx))
      (by
        rw [hbuf']
        simp only [List.length_cons] at hlen
        omega)
    show fillFrom (spliceAt (3 * p) (3 * p + 3) r.rgb buf) (p + 1) rest = _
    rw [hrec, hstep]
    have htk : (buf.take (3 * p)).length = 3 * p :=
      List.length_take_of_le (by omega)
    have htake :
        ((buf.take (3 * p) ++ r.rgb ++ buf.drop (3 * p + 3)).take (3 * (p + 1))) =
          buf.take (3 * p) ++ r.rgb := by
      rw [List.append_assoc, List.take_append_eq_append_take, htk]
      have h1 : 3 * (p + 1) - 3 * p = 3 := by omega
      rw [List.take_of_length_le (by omega), h1]
      rw [List.take_append_eq_append_take, hr]
      simp [List.take_of_length_le (Nat.le_of_eq hr)]
    have hdrop :
        ((buf.take (3 * p) ++ r.rgb ++ buf.drop (3 * p + 3)).drop
            (3 * (p + 1) + 3 * rest.length)) =
          buf.drop (3 * p + 3 * (r :: rest).length) := by
      rw [List.append_assoc, List.drop_append_eq_append_drop, htk]
      have h1 : 3 * (p + 1) + 3 * rest.length - 3 * p = 3 + 3 * rest.length := by
        omega
      rw [List.drop_eq_nil_of_le (by omega), h1]
      rw [List.drop_append_eq_append_drop, hr]
      rw [List.drop_eq_nil_of_le (by omega)]
      simp only [List.nil_append, List.drop_drop, List.length_cons]
      congr 1
      omega
    rw [htake, hdrop]
    simp [List.append_assoc, List.flatten_cons]

/-- A cache line built by the rebuild is the concatenation of the colors of
its record chunk, padded with zeros up to 3*w bytes. -/
theorem fillLine_eq (w : Nat) (records : List Rec) (line : Nat)
    (hu : ∀ r ∈ records, r.rgb.length = 3) :
    fillLine w records line =
      (((records.drop (line * w)).take w).map Rec.rgb).flatten ++
        List.replicate (3 * w - 3 * ((records.drop (line * w)).take w).length) 0 := by
  have hchunk : ((records.drop (line * w)).take w).length ≤ w := by
    simpa using List.length_take_le w (records.drop (line * w))
  have hu' : ∀ r ∈ (records.drop (line * w)).take w, r.rgb.length = 3 := by
    intro r hr
    exact hu r (List.mem_of_mem_drop (List.mem_of_mem_take hr))
  rw [fillLine, fillFrom_eq _ _ _ hu' (by simp)]
  simp [List.take_replicate, List.drop_replicate]

/-- When the projection has a full chunk for the line, the padding is empty:
the line is exactly the w concatenated colors of its chunk. -/
theorem fillLine_complete (w : Nat) (records : List Rec) (line : Nat)
    (hu : ∀ r ∈ records, r.rgb.length = 3)
    (hlen : (line + 1) * w ≤ records.length) :
    fillLine w records line =
      (((records.drop (line * w)).take w).map Rec.rgb).flatten := by
  have hchunk : ((records.drop (line * w)).take w).length = w := by
    rw [List.length_take, List.length_drop]
    have : w ≤ records.length - line * w := by
      have := hlen
      rw [Nat.succ_mul] at this
      omega
    omega
  rw [fillLine_eq w records line hu, hchunk]
  simp

/-- Splitting any list into consecutive chunks of w and concatenating them
back is the identity, provided the length is exactly w * h. -/
theorem chunks_join {α : Type} :
    ∀ (h : Nat) (w : Nat) (xs : List α), xs.length = w * h →
      ((List.range h).map (fun l => (xs.drop (l * w)).take w)).flatten = xs := by
  intro h
  induction h with
  | zero =>
    intro w xs hlen
    simp at hlen
    simp [hlen]
  | succ h ih =>
    intro w xs hlen
    rw [List.range_succ_eq_map]
    simp only [List.map_cons, List.map_map, List.flatten_cons, Nat.zero_mul,
      List.drop_zero]
    have hcomp :
        ((fun l => (xs.drop (l * w)).take w) ∘ Nat.succ) =
          fun l => ((xs.drop w).drop (l * w)).take w := by
      funext l
      simp only [Function.comp]
      rw [List.drop_drop, Nat.succ_mul, Nat.add_comm]
    rw [hcomp, ih w (xs.drop w) (by rw [List.length_drop, hlen, Nat.mul_succ]; omega)]
    exact List.take_append_drop w xs

/-- Concatenating the rebuilt cache lines in row order reproduces the byte
sequence of the projection exactly as the store returned it. -/
theorem populateLines_join (w h : Nat) (records : List Rec)
    (hu : ∀ r ∈ records, r.rgb.length = 3)
    (hlen : records.length = w * h) :
    (populateLines w h records).flatten = (records.map Rec.rgb).flatten := by
  have hrows : populateLines w h records =
      (List.range h).map
        (fun l => ((((records.map Rec.rgb).drop (l * w)).take w)).flatten) := by
    rw [populateLines]
    apply List.map_congr_left
    intro l hl
    have hl' : l < h := List.mem_range.mp hl
    rw [fillLine_complete w records l hu
      (by rw [hlen, Nat.mul_comm]; exact Nat.mul_le_mul_left w hl')]
    rw [List.map_take, List.map_drop]
  rw [hrows]
  have := chunks_join h w (records.map Rec.rgb)
    (by rw [List.length_map, hlen])
  calc ((List.range h).map
        (fun l => ((((records.map Rec.rgb).drop (l * w)).take w)).flatten)).flatten
      = (((List.range h).map
          (fun l => (((records.map Rec.rgb).drop (l * w)).take w))).map
            List.flatten).flatten := by rw [List.map_map]; rfl
    _ = (((List.range h).map
          (fun l => (((records.map Rec.rgb).drop (l * w)).take w))).flatten).flatten := by
          rw [List.join_join]
    _ = (records.map Rec.rgb).flatten := by rw [this]

/-- Every line buffer written by the rebuild has exactly 3*w bytes. -/
theorem populateLines_lengths (w h : Nat) (records : List Rec)
    (hu : ∀ r ∈ records, r.rgb.length = 3) :
    ∀ l ∈ populateLines w h records, l.length = 3 * w := by
  intro l hl
  rw [populateLines] at hl
  obtain ⟨line, _, rfl⟩ := List.mem_map.mp hl
  have hchunk : ((records.drop (line * w)).take w).length ≤ w := by
    simpa using List.length_take_le w (records.drop (line * w))
  rw [fillLine_eq w records line hu]
  rw [List.length_append, List.length_replicate]
  rw [length_join_uniform 3]
  · rw [List.length_map]
    omega
  · intro v hv
    obtain ⟨r, hr, rfl⟩ := List.mem_map.mp hv
    exact hu r (List.mem_of_mem_drop (List.mem_of_mem_take hr))

/-- The read loop of get_pixels over rows i..h-1, acting on a prepared
buffer. -/
theorem get_fold_aux (w : Nat) (lines : List (List Nat))
    (hunif : ∀ l ∈ lines, l.length = 3 * w) :
    ∀ (n i : Nat) (buf : List Nat), i + n = lines.length →
      buf.length = 3 * w * lines.length →
      (List.range' i n).foldl
          (fun buf l =>
            spliceAt (l * (3 * w)) ((l + 1) * (3 * w)) (lines.getD l []) buf) buf =
        buf.take (i * (3 * w)) ++ (lines.drop i).flatten := by
  intro n
  induction n with
  | zero =>
    intro i buf hi hbuf
    have hdrop : lines.drop i = [] := List.drop_eq_nil_of_le (by omega)
    have htake : buf.take (i * (3 * w)) = buf := by
      apply List.take_of_length_le
      rw [hbuf]
      have : i = lines.length := by omega
      rw [this]
      ring_nf
      omega
    simp [hdrop, htake]
  | succ n ih =>
    intro i buf hi hbuf
    have hilt : i < lines.length := by omega
    have hLi : (lines.getD i []).length = 3 * w := by
      rw [List.getD_eq_getElem lines [] hilt]
      exact hunif _ (List.getElem_mem hilt)
    have hA : (buf.take (i * (3 * w))).length = i * (3 * w) := by
      apply List.length_take_of_le
      rw [hbuf]
      calc i * (3 * w) ≤ lines.length * (3 * w) :=
            Nat.mul_le_mul_right _ (Nat.le_of_lt hilt)
        _ = 3 * w * lines.length := Nat.mul_comm _ _
    have hstep :
        spliceAt (i * (3 * w)) ((i + 1) * (3 * w)) (lines.getD i []) buf =
          buf.take (i * (3 * w)) ++ lines.getD i [] ++ buf.drop ((i + 1) * (3 * w)) :=
      rfl
    have hsteplen :
        (spliceAt (i * (3 * w)) ((i + 1) * (3 * w)) (lines.getD i []) buf).length =
          3 * w * lines.length := by
      rw [hstep, List.length_append, List.length_append, hA, hLi,
        List.length_drop, hbuf]
      have h1 : (i + 1) * (3 * w) ≤ 3 * w * lines.length := by
        calc (i + 1) * (3 * w) ≤ lines.length * (3 * w) :=
              Nat.mul_le_mul_right _ hilt
          _ = 3 * w * lines.length := Nat.mul_comm _ _
      have h2 : (i + 1) * (3 * w) = i * (3 * w) + 3 * w := by ring
      omega
    rw [show List.range' i (n + 1) = i :: List.range' (i + 1) n from rfl]
    rw [List.foldl_cons]
    rw [ih (i + 1) _ (by omega) hsteplen]
    have htake2 :
        ((spliceAt (i * (3 * w)) ((i + 1) * (3 * w)) (lines.getD i []) buf).take
            ((i + 1) * (3 * w))) =
          buf.take (i * (3 * w)) ++ lines.getD i [] := by
      rw [hstep, List.append_assoc, List.take_append_eq_append_take, hA]
      rw [List.take_of_length_le
        (by rw [hA]; exact Nat.mul_le_mul_right _ (Nat.le_succ i))]
      have h2 : (i + 1) * (3 * w) - i * (3 * w) = 3 * w := by
        have : (i + 1) * (3 * w) = i * (3 * w) + 3 * w := by ring
        omega
      rw [h2, List.take_append_eq_append_take, hLi,
        List.take_of_length_le (Nat.le_of_eq hLi)]
      simp
    rw [htake2]
    have hsplit : lines.drop i = lines.getD i [] :: lines.drop (i + 1) := by
      rw [List.getD_eq_getElem lines [] hilt]
      exact List.drop_eq_getElem_cons hilt
    rw [hsplit]
    simp [List.append_assoc]

/-- On a well-formed cache (h lines of 3*w bytes each), get_pixels returns
exactly the concatenation of the cache lines in row order. -/
theorem get_pixels_bytes_eq_flatten (w h : Nat) (lines : List (List Nat))
    (hlen : lines.length = h) (hunif : ∀ l ∈ lines, l.length = 3 * w) :
    get_pixels_bytes w h lines = lines.flatten := by
  rw [get_pixels_bytes, List.range_eq_range']
  rw [get_fold_aux w lines hunif h 0 _ (by omega)
    (by rw [List.length_replicate, hlen]; ring)]
  simp

theorem cexProjection_rgb3 : ∀ r ∈ cexProjection, r.rgb.length = 3 := by
  intro r hr
  obtain ⟨i, _, rfl⟩ := List.mem_map.mp hr
  dsimp only
  split <;> rfl

theorem cexProjection_length : cexProjection.length = width * height := by
  simp [cexProjection]

theorem cexProjection_get (i : Nat) (hi : i < width * height) :
    cexProjection.get? i =
      some { x := i / height, y := i % height,
             rgb := if i = 1 then [255, 0, 0] else [0, 0, 0] } := by
  rw [cexProjection, List.get?_map, List.get?_range hi]
  rfl

/-- Where one byte triple of the rebuilt cache actually comes from: row l,
column p holds the color of the record at flat position l*width + p of the
(x, y)-ordered projection. -/
theorem populate_cex_slice (l p : Nat) (hl : l < height) (hp : p < width) :
    (((populateLines width height cexProjection).getD l []).drop (3 * p)).take 3 =
      (if l * width + p = 1 then [255, 0, 0] else [0, 0, 0]) := by
  have hidx : l * width + p < width * height := by
    have h1 : l + 1 ≤ height := hl
    calc l * width + p < l * width + width := by omega
      _ = (l + 1) * width := by ring
      _ ≤ height * width := Nat.mul_le_mul_right _ h1
      _ = width * height := Nat.mul_comm _ _
  have hrow : (populateLines width height cexProjection).getD l [] =
      fillLine width cexProjection l := by
    have h := List.get?_map (fillLine width cexProjection) (List.range height) l
    rw [List.get?_range hl] at h
    show ((List.range height).map (fillLine width cexProjection)).getD l [] = _
    rw [List.getD, h]
    rfl
  have hfull : (l + 1) * width ≤ cexProjection.length := by
    rw [cexProjection_length]
    calc (l + 1) * width ≤ height * width := Nat.mul_le_mul_right _ hl
      _ = width * height := Nat.mul_comm _ _
  rw [hrow, fillLine_complete width cexProjection l cexProjection_rgb3 hfull]
  set chunk := (cexProjection.drop (l * width)).take width with hchunk
  have hchunklen : chunk.length = width := by
    rw [hchunk, List.length_take, List.length_drop, cexProjection_length]
    have : (l + 1) * width ≤ width * height := by
      calc (l + 1) * width ≤ height * width := Nat.mul_le_mul_right _ hl
        _ = width * height := Nat.mul_comm _ _
    have h2 : (l + 1) * width = l * width + width := by ring
    omega
  have hslice := join_uniform_slice (chunk.map Rec.rgb) p
    (by
      intro v hv
      obtain ⟨r, hr, rfl⟩ := List.mem_map.mp hv
      exact cexProjection_rgb3 r
        (List.mem_of_mem_drop (List.mem_of_mem_take hr)))
    (by rw [List.length_map, hchunklen]; exact hp)
  rw [hslice]
  have hget : chunk.get? p = cexProjection.get? (l * width + p) := by
    rw [hchunk, List.get?_take hp, List.get?_drop]
  rw [List.getD, List.get?_map, hget, cexProjection_get _ hidx]
  rfl

/-- C1 fails on the code: evaluating the rebuild on cexProjection (the
complete (x, y)-ordered projection whose only red cell is (0, 1)), the red
color is written to row buffer 0 at byte offset 3 — flat position
x*height + y, because ORDER BY x, y is x-major while the chunking assumes
row-major order — while row buffer 1 holds black at offset 0, where the
claim (and set_pixel/get_pixels) place the color of cell (0, 1). -/
theorem rebuild_transposes_cells :
    cexProjection.get? 1 = some { x := 0, y := 1, rgb := [255, 0, 0] } ∧
    cexProjection.length = width * height ∧
    ((((populateLines width height cexProjection).getD 0 []).drop 3).take 3 =
      [255, 0, 0]) ∧
    ((((populateLines width height cexProjection).getD 1 []).drop 0).take 3 =
      [0, 0, 0]) := by
  refine ⟨?_, cexProjection_length, ?_, ?_⟩
  · rw [cexProjection_get 1 (by norm_num [width, height])]
    rfl
  · have h := populate_cex_slice 0 1 (by norm_num [height]) (by norm_num [width])
    norm_num [width] at h
    simpa using h
  · have h := populate_cex_slice 1 0 (by norm_num [height]) (by norm_num [width])
    norm_num [width] at h
    simpa using h

/-- The read loop of get_pixels only appends redisGet entries to the trace
and never touches any other machine component. -/
theorem get_pixelsM_fold (w : Nat) :
    ∀ (ls : List Nat) (buf : List Nat) (m : Machine),
      (ls.foldl
          (fun p l =>
            (spliceAt (l * (3 * w)) ((l + 1) * (3 * w)) (p.2.lines.getD l []) p.1,
             tr p.2 (.redisGet l)))
          (buf, m)) =
        (ls.foldl
          (fun b l => spliceAt (l * (3 * w)) ((l + 1) * (3 * w)) (m.lines.getD l []) b)
          buf,
         { m with trace := m.trace ++ ls.map Op.redisGet }) := by
  intro ls
  induction ls with
  | nil => intro buf m; simp
  | cons l rest ih =>
    intro buf m
    rw [List.foldl_cons, List.foldl_cons, ih]
    simp [tr, List.append_assoc]

theorem try_acquire_lock_sets (now : Nat) (cs : CacheState) :
    (try_acquire_lock now cs).2.sync_lock = some now := rfl

theorem try_acquire_lock_true_iff (now : Nat) (cs : CacheState) :
    (try_acquire_lock now cs).1 = true ↔ cs.sync_lock = none := by
  cases h : cs.sync_lock <;> simp [try_acquire_lock, h]

theorem race_acquire_held (times : List Nat) (cs : CacheState)
    (h : cs.sync_lock ≠ none) : (race_acquire times cs).1 = 0 := by
  induction times generalizing cs with
  | nil => rfl
  | cons t rest ih =>
    have hb : (try_acquire_lock t cs).1 = false := by
      cases hcs : cs.sync_lock with
      | none => exact absurd hcs h
      | some v => simp [try_acquire_lock, hcs]
    simp only [race_acquire, hb, Bool.false_eq_true, if_false, Nat.zero_add]
    apply ih
    simp [try_acquire_lock]

theorem race_acquire_free_one (times : List Nat) (cs : CacheState)
    (hfree : cs.sync_lock = none) (hne : times ≠ []) :
    (race_acquire times cs).1 = 1 := by
  cases times with
  | nil => exact absurd rfl hne
  | cons t rest =>
    have hb : (try_acquire_lock t cs).1 = true := by
      simp [try_acquire_lock, hfree]
    have hrest : (race_acquire rest (try_acquire_lock t cs).2).1 = 0 :=
      race_acquire_held _ _ (by simp [try_acquire_lock])
    simp [race_acquire, hb, hrest]

@[simp] theorem tr_cache_state (m : Machine) (o : Op) :
    (tr m o).cache_state = m.cache_state := rfl

@[simp] theorem tr_lines (m : Machine) (o : Op) : (tr m o).lines = m.lines := rfl

@[simp] theorem tr_history (m : Machine) (o : Op) :
    (tr m o).history = m.history := rfl

@[simp] theorem tr_projection (m : Machine) (o : Op) :
    (tr m o).projection = m.projection := rfl

@[simp] theorem tr_time (m : Machine) (o : Op) : (tr m o).time = m.time := rfl

@[simp] theorem tr_sched (m : Machine) (o : Op) : (tr m o).sched = m.sched := rfl

@[simp] theorem tr_redisResults (m : Machine) (o : Op) :
    (tr m o).redisResults = m.redisResults := rfl

@[simp] theorem tr_trace (m : Machine) (o : Op) :
    (tr m o).trace = m.trace ++ [o] := rfl

theorem envStep_nil (m : Machine) (h : m.sched = []) : envStep m = m := by
  rw [envStep, h]

theorem readCacheStateOp_nil (m : Machine) (h : m.sched = []) :
    readCacheStateOp m = (m.cache_state, tr m .readCacheState) := by
  rw [readCacheStateOp, envStep_nil m h]

theorem is_cache_out_of_dateOp_nil (m : Machine) (h : m.sched = []) :
    is_cache_out_of_dateOp m =
      (decide (m.cache_state.last_modified > m.cache_state.last_synced),
       tr m .readCacheState) := by
  rw [is_cache_out_of_dateOp, readCacheStateOp_nil m h]

theorem try_acquireOp_nil (m : Machine) (h : m.sched = []) :
    try_acquireOp m =
      (m.cache_state.sync_lock.isNone,
       tr { m with cache_state := { m.cache_state with sync_lock := some m.time } }
         (.acquireLock m.cache_state.sync_lock)) := by
  rw [try_acquireOp, envStep_nil m h]
  rfl

theorem releaseOp_nil (m : Machine) (h : m.sched = []) :
    releaseOp m =
      tr { m with cache_state := { m.cache_state with sync_lock := none } }
        .releaseLock := by
  rw [releaseOp, envStep_nil m h]

theorem setLastSyncedOp_nil (m : Machine) (h : m.sched = []) :
    setLastSyncedOp m =
      tr { m with cache_state := { m.cache_state with last_synced := m.time } }
        .setLastSynced := by
  rw [setLastSyncedOp, envStep_nil m h]

theorem setLockNowOp_nil (m : Machine) (h : m.sched = []) :
    setLockNowOp m =
      tr { m with cache_state := { m.cache_state with sync_lock := some m.time } }
        .setLockNow := by
  rw [setLockNowOp, envStep_nil m h]

theorem reclaimCondOp_nil_old (m : Machine) (t : Nat) (h : m.sched = [])
    (hl : m.cache_state.sync_lock = some t) (hold : m.time - t > KEY_TIMEOUT) :
    reclaimCondOp m =
      (true,
       tr { m with cache_state := { m.cache_state with sync_lock := some m.time } }
         (.reclaimTry true)) := by
  rw [reclaimCondOp, envStep_nil m h, hl]
  simp [hold]

theorem reclaimCondOp_nil_young (m : Machine) (t : Nat) (h : m.sched = [])
    (hl : m.cache_state.sync_lock = some t) (hyoung : ¬ m.time - t > KEY_TIMEOUT) :
    reclaimCondOp m = (false, tr m (.reclaimTry false)) := by
  rw [reclaimCondOp, envStep_nil m h, hl]
  simp [hyoung]

/-- The conditional reclaim only ever wins against a lock whose age exceeds
KEY_TIMEOUT (the WHERE clause is the sole arbiter). -/
theorem reclaimCondOp_won_old (m : Machine) (h : m.sched = []) :
    (reclaimCondOp m).1 = true →
      ∃ t, m.cache_state.sync_lock = some t ∧ m.time - t > KEY_TIMEOUT := by
  intro hw
  rw [reclaimCondOp, envStep_nil m h] at hw
  cases hl : m.cache_state.sync_lock with
  | none => rw [hl] at hw; simp at hw
  | some t =>
    rw [hl] at hw
    by_cases hc : m.time - t > KEY_TIMEOUT
    · exact ⟨t, rfl, hc⟩
    · simp [hc] at hw

theorem populateLines_length (w h : Nat) (records : List Rec) :
    (populateLines w h records).length = h := by
  simp [populateLines]

theorem getD_range_map {α : Type} (new : List α) (d : α) (h : Nat)
    (hlen : new.length = h) :
    (List.range h).map (fun l => new.getD l d) = new := by
  subst hlen
  apply List.ext_get?
  intro n
  by_cases hn : n < new.length
  · rw [List.get?_map, List.get?_range hn]
    simp [List.getD_eq_getElem new d hn, List.get?_eq_getElem?,
      List.getElem?_eq_getElem hn]
  · rw [List.get?_map]
    rw [List.get?_eq_none.mpr (by simpa using Nat.le_of_not_lt hn)]
    rw [List.get?_eq_none.mpr (by simpa using Nat.le_of_not_lt hn)]
    rfl

theorem applyBatch_all_true (h : Nat) (old new : List (List Nat))
    (hlen : new.length = h) :
    applyBatch h old new (List.replicate h true) = new := by
  rw [applyBatch]
  have hcong : ∀ l ∈ List.range h,
      (if (List.replicate h true).getD l false then new.getD l [] else old.getD l []) =
        new.getD l [] := by
    intro l hl
    have hlt : l < h := List.mem_range.mp hl
    have : (List.replicate h true).getD l false = true := by
      rw [List.getD_eq_getElem _ _ (by simpa using hlt)]
      simp
    rw [this]
    simp
  rw [List.map_congr_left hcong]
  exact getD_range_map new [] h hlen

/-- A rebuild pass with a quiet environment and an all-success batch:
lines replaced by the rebuilt buffers, then last_synced advanced. -/
theorem populateOp_quiet (w h : Nat) (m : Machine) (hs : m.sched = [])
    (hr : m.redisResults = []) :
    populateOp w h m =
      (true,
       setLastSyncedOp
         { m with lines := populateLines w h m.projection,
                  trace := m.trace ++ rebuildOps h }) := by
  obtain ⟨cs, proj, hist, lines, time, sched, rr, trace⟩ := m
  simp only at hs hr
  subst hs
  subst hr
  simp [populateOp, envStep, tr, setLastSyncedOp, rebuildOps,
    applyBatch_all_true, populateLines_length]

/-- A rebuild pass in which some batched write fails: the IOError path is
taken and last_synced is not touched. -/
theorem populateOp_fail (w h : Nat) (m : Machine) (flags : List Bool)
    (hs : m.sched = []) (hr : m.redisResults = [flags])
    (hf : flags.all (fun b => b) = false) :
    populateOp w h m =
      (false,
       { m with lines := applyBatch h m.lines (populateLines w h m.projection) flags,
                redisResults := [],
                trace := m.trace ++ rebuildOps h }) := by
  obtain ⟨cs, proj, hist, lines, time, sched, rr, trace⟩ := m
  simp only at hs hr
  subst hs
  subst hr
  simp [populateOp, envStep, tr, rebuildOps, hf]

/-- sync_cache on a fresh cache: one staleness check, no lock activity. -/
theorem syncCacheM_fresh (w h fuel : Nat) (lc : Bool) (m : Machine)
    (hs : m.sched = [])
    (hfresh : m.cache_state.last_modified ≤ m.cache_state.last_synced) :
    syncCacheM w h (fuel + 1) lc m = some (.ok (tr m .readCacheState)) := by
  rw [syncCacheM, is_cache_out_of_dateOp_nil m hs]
  simp [Nat.not_lt.mpr hfresh]

/-- One full sync() pass on a stale cache with a free lock and a quiet
environment: the lock is acquired, all lines are rebuilt from the
projection, last_synced becomes now, the lock is released, and the re-check
finds the cache fresh. -/
theorem syncCacheM_stale_free (w h fuel : Nat) (m : Machine)
    (hs : m.sched = []) (hr : m.redisResults = [])
    (hstale : m.cache_state.last_synced < m.cache_state.last_modified)
    (hfree : m.cache_state.sync_lock = none)
    (hlm : m.cache_state.last_modified ≤ m.time) :
    syncCacheM w h (fuel + 2) false m =
      some (.ok
        { m with
          cache_state :=
            { last_modified := m.cache_state.last_modified,
              last_synced := m.time, sync_lock := none },
          lines := populateLines w h m.projection,
          trace := m.trace ++ syncPassOps h }) := by
  obtain ⟨⟨lm, ls, lk⟩, proj, hist, lines, time, sched, rr, trace⟩ := m
  simp only at hs hr hstale hfree hlm
  subst hs
  subst hr
  subst hfree
  rw [show fuel + 2 = (fuel + 1) + 1 from rfl, syncCacheM,
    is_cache_out_of_dateOp_nil _ rfl]
  simp only [decide_eq_true (show lm > ls from hstale), if_true]
  rw [try_acquireOp_nil _ rfl]
  simp only [Option.isNone_none, Bool.true_or, if_true]
  rw [populateOp_quiet _ _ _ rfl rfl]
  simp only
  rw [setLastSyncedOp_nil _ rfl, releaseOp_nil _ rfl]
  simp only [tr]
  rw [syncCacheM_fresh w h fuel false _ rfl (by simpa using hlm)]
  simp [tr, syncPassOps, rebuildOps]

/-- Splicing three bytes at offset off puts them at off and leaves every
byte outside [off, off+3) unchanged. -/
theorem spliceAt_bytes (off : Nat) (rgb buf : List Nat)
    (hrgb : rgb.length = 3) (hoff : off + 3 ≤ buf.length) :
    (((spliceAt off (off + 3) rgb buf).drop off).take 3 = rgb) ∧
    (∀ i : Nat, i < off ∨ off + 3 ≤ i →
      (spliceAt off (off + 3) rgb buf).getD i 0 = buf.getD i 0) := by
  have htk : (buf.take off).length = off := List.length_take_of_le (by omega)
  constructor
  · rw [spliceAt, List.append_assoc, List.drop_append_eq_append_drop, htk]
    rw [List.drop_eq_nil_of_le (by omega), Nat.sub_self, List.drop_zero,
      List.nil_append, List.take_append_eq_append_take, hrgb,
      List.take_of_length_le (Nat.le_of_eq hrgb), Nat.sub_self,
      List.take_zero, List.append_nil]
  · intro i hi
    rw [List.getD, List.getD]
    rcases hi with hlt | hge
    · rw [spliceAt, List.append_assoc]
      rw [List.get?_append (by omega)]
      rw [List.get?_take (by omega)]
    · rw [spliceAt, List.append_assoc]
      rw [List.get?_append_right (by omega), htk]
      rw [List.get?_append_right (by rw [hrgb]; omega)]
      rw [hrgb, List.get?_drop]
      have hidx : off + 3 + (i - off - 3) = i := by omega
      rw [hidx]

/-- Splicing past a fixed prefix splices into the suffix. -/
theorem spliceAt_append_left (A buf v : List Nat) (a b : Nat) :
    spliceAt (A.length + a) (A.length + b) v (A ++ buf) =
      A ++ spliceAt a b v buf := by
  rw [spliceAt, spliceAt, List.take_append_eq_append_take,
    List.drop_append_eq_append_drop]
  rw [List.take_of_length_le (by omega), List.drop_eq_nil_of_le (by omega)]
  rw [Nat.add_sub_cancel_left, Nat.add_sub_cancel_left]
  simp [List.append_assoc]

/-- Splicing inside the first part of a concatenation leaves the tail
alone. -/
theorem spliceAt_append_right (Ly B v : List Nat) (a b : Nat)
    (ha : a ≤ Ly.length) (hb : b ≤ Ly.length) :
    spliceAt a b v (Ly ++ B) = spliceAt a b v Ly ++ B := by
  rw [spliceAt, spliceAt, List.take_append_eq_append_take,
    List.drop_append_eq_append_drop]
  rw [Nat.sub_eq_zero_of_le ha, Nat.sub_eq_zero_of_le hb]
  simp [List.append_assoc]

/-- Patching one row of a well-formed line list and flattening equals
splicing the patch into the flattened board at offset y*w*3 + x*3. -/
theorem set_line_flatten (w : Nat) (lines : List (List Nat)) (y x : Nat)
    (rgb : List Nat) (hy : y < lines.length) (hx : x < w)
    (hrgb : rgb.length = 3) (hunif : ∀ l ∈ lines, l.length = 3 * w) :
    (lines.set y (spliceAt (3 * x) (3 * x + 3) rgb (lines.getD y []))).flatten =
      spliceAt (y * (w * 3) + x * 3) (y * (w * 3) + x * 3 + 3) rgb
        lines.flatten := by
  have hLy : lines.getD y [] = lines[y] := List.getD_eq_getElem lines [] hy
  have hLymem : lines[y] ∈ lines := List.getElem_mem hy
  have hLylen : (lines.getD y []).length = 3 * w := by rw [hLy]; exact hunif _ hLymem
  have hsplit : lines = lines.take y ++ lines.getD y [] :: lines.drop (y + 1) := by
    rw [hLy]
    conv_lhs => rw [← List.take_append_drop y lines]
    rw [List.drop_eq_getElem_cons hy]
  have hset : lines.set y (spliceAt (3 * x) (3 * x + 3) rgb (lines.getD y [])) =
      lines.take y ++
        spliceAt (3 * x) (3 * x + 3) rgb (lines.getD y []) :: lines.drop (y + 1) := by
    rw [List.set_eq_take_append_cons_drop, if_pos hy]
  have hA : (lines.take y).flatten.length = y * (3 * w) := by
    rw [length_join_uniform (3 * w) _
      (fun v hv => hunif v (List.mem_of_mem_take hv))]
    rw [List.length_take, Nat.min_eq_left (Nat.le_of_lt hy)]
  have hoff1 : y * (w * 3) + x * 3 = (lines.take y).flatten.length + 3 * x := by
    rw [hA]; ring
  conv_rhs => rw [hsplit]
  rw [List.flatten_append, List.flatten_cons]
  rw [hoff1, Nat.add_assoc]
  rw [spliceAt_append_left]
  rw [spliceAt_append_right _ _ _ _ _ (by rw [hLylen]; omega) (by rw [hLylen]; omega)]
  rw [hset, List.flatten_append, List.flatten_cons]

/-- C10: get_pixels is a pure read: it leaves every CacheLine, every
CacheState field and the pixel history unchanged, performs only redis line
reads (no store operation, no cache write), and its buffer is built as an
independent value from the lines. -/
theorem get_pixels_pure_read (w h : Nat) (m : Machine) :
    (get_pixelsM w h m).1 = get_pixels_bytes w h m.lines ∧
    (get_pixelsM w h m).2.cache_state = m.cache_state ∧
    (get_pixelsM w h m).2.lines = m.lines ∧
    (get_pixelsM w h m).2.history = m.history ∧
    (get_pixelsM w h m).2.trace = m.trace ++ (List.range h).map Op.redisGet ∧
    (∀ o ∈ (List.range h).map Op.redisGet, ∃ l, o = Op.redisGet l) := by
  rw [get_pixelsM, get_pixelsM_fold w]
  refine ⟨rfl, rfl, rfl, rfl, rfl, ?_⟩
  intro o ho
  obtain ⟨l, _, rfl⟩ := List.mem_map.mp ho
  exact ⟨l, rfl⟩

/-- C2: an out-of-range coordinate or a malformed color makes set_pixel
fail validation and return with the starting state untouched (no store or
cache operation was performed: the trace is unchanged), while in-range
corner coordinates with a well-formed color pass validation. -/
theorem set_pixel_validation (w h fuel : Nat) (m : Machine) (x y : Int)
    (rgb : List Nat) (uid : Nat) :
    (valid_pixel w h x y rgb = false →
      set_pixel_endpoint w h fuel m x y rgb uid =
        some (.err .validationFail m)) ∧
    ((x < 0 ∨ (w : Int) ≤ x ∨ y < 0 ∨ (h : Int) ≤ y ∨ rgb.length ≠ 3) →
      valid_pixel w h x y rgb = false) ∧
    (rgb.length = 3 → (∀ b ∈ rgb, b < 256) → 1 ≤ w → 1 ≤ h →
      valid_pixel w h 0 0 rgb = true ∧
      valid_pixel w h ((w : Int) - 1) ((h : Int) - 1) rgb = true) := by
  refine ⟨?_, ?_, ?_⟩
  · intro hinv
    simp [set_pixel_endpoint, hinv]
  · intro hdisj
    rw [Bool.eq_false_iff]
    intro hval
    rw [valid_pixel] at hval
    simp only [Bool.and_eq_true, decide_eq_true_eq] at hval
    obtain ⟨⟨⟨⟨⟨h0x, hxw⟩, h0y⟩, hyh⟩, hlen⟩, _⟩ := hval
    rcases hdisj with hy | hy | hy | hy | hy <;> omega
  · intro hlen hbytes hw hh
    constructor
    · rw [valid_pixel]
      simp only [Bool.and_eq_true, decide_eq_true_eq, List.all_eq_true]
      refine ⟨⟨⟨⟨⟨le_refl 0, ?_⟩, le_refl 0⟩, ?_⟩, hlen⟩, ?_⟩
      · exact_mod_cast hw
      · exact_mod_cast hh
      · intro b hb
        simpa using hbytes b hb
    · rw [valid_pixel]
      simp only [Bool.and_eq_true, decide_eq_true_eq, List.all_eq_true]
      refine ⟨⟨⟨⟨⟨?_, ?_⟩, ?_⟩, ?_⟩, hlen⟩, ?_⟩
      · omega
      · omega
      · omega
      · omega
      · intro b hb
        simpa using hbytes b hb

theorem set_pixel_validation_witness :
    (set_pixel_endpoint width height 5 sampleMachine 200 0 [1, 2, 3] 7 =
      some (.err .validationFail sampleMachine)) ∧
    valid_pixel width height 200 0 [1, 2, 3] = false ∧
    valid_pixel width height 0 0 [1, 2, 3] = true ∧
    valid_pixel width height 159 89 [1, 2, 3] = true := by
  have h := set_pixel_validation width height 5 sampleMachine 200 0 [1, 2, 3] 7
  have hinv : valid_pixel width height 200 0 [1, 2, 3] = false :=
    h.2.1 (by right; left; decide)
  have hc := h.2.2 (by decide) (by decide) (by decide) (by decide)
  exact ⟨h.1 hinv, hinv, by simpa [width, height] using hc.1,
    by simpa [width, height] using hc.2⟩

/-- C5: _try_acquire_lock unconditionally overwrites sync_lock with now
(also when acquisition fails), returns true exactly when the previous value
was absent, and among any nonempty sequence of callers serialized on a free
lock exactly one receives true. -/
theorem try_acquire_spec (now : Nat) (cs : CacheState) (times : List Nat) :
    ((try_acquire_lock now cs).2.sync_lock = some now) ∧
    ((try_acquire_lock now cs).1 = true ↔ cs.sync_lock = none) ∧
    (cs.sync_lock = none → times ≠ [] → (race_acquire times cs).1 = 1) :=
  ⟨try_acquire_lock_sets now cs, try_acquire_lock_true_iff now cs,
   fun hf hn => race_acquire_free_one times cs hf hn⟩

theorem try_acquire_spec_witness :
    ((try_acquire_lock 5 (CacheState.mk 0 0 (some 2))).2.sync_lock = some 5) ∧
    ((try_acquire_lock 5 (CacheState.mk 0 0 none)).1 = true) ∧
    (race_acquire [5, 6, 7] (CacheState.mk 0 0 none)).1 = 1 := by
  refine ⟨(try_acquire_spec 5 _ []).1, ?_, ?_⟩
  · exact (try_acquire_spec 5 (CacheState.mk 0 0 none) []).2.1.mpr rfl
  · exact (try_acquire_spec 5 (CacheState.mk 0 0 none) [5, 6, 7]).2.2 rfl
      (by decide)

/-- C9: the rebuild only writes line buffers of exactly width*3 bytes, the
row buffer patched by set_pixel keeps its width*3 length, and a well-formed
cache concatenates to a width*height*3 byte board. -/
theorem cache_line_length_invariant (w h : Nat) (records : List Rec)
    (line rgb : List Nat) (x : Nat) (lines : List (List Nat))
    (hu : ∀ r ∈ records, r.rgb.length = 3)
    (hline : line.length = 3 * w) (hx : x < w) (hrgb : rgb.length = 3)
    (hlines : lines.length = h) (hunif : ∀ l ∈ lines, l.length = 3 * w) :
    (∀ l ∈ populateLines w h records, l.length = 3 * w) ∧
    (spliceAt (3 * x) (3 * x + 3) rgb line).length = 3 * w ∧
    (get_pixels_bytes w h lines).length = w * h * 3 := by
  refine ⟨populateLines_lengths w h records hu, ?_, ?_⟩
  · have hsl := spliceAt_length (3 * x) rgb line (by omega)
    rw [hrgb] at hsl
    rw [hsl, hline]
  · rw [get_pixels_bytes_eq_flatten w h lines hlines hunif]
    rw [length_join_uniform (3 * w) lines hunif, hlines]
    ring

theorem cache_line_length_invariant_witness :
    (∀ l ∈ populateLines 2 2 sampleMachine.projection, l.length = 3 * 2) ∧
    (spliceAt (3 * 1) (3 * 1 + 3) [9, 9, 9] [1, 2, 3, 4, 5, 6]).length = 3 * 2 ∧
    (get_pixels_bytes 2 2 sampleMachine.lines).length = 2 * 2 * 3 :=
  cache_line_length_invariant 2 2 sampleMachine.projection [1, 2, 3, 4, 5, 6]
    [9, 9, 9] 1 sampleMachine.lines (by decide) (by decide) (by decide)
    (by decide) (by decide) (by decide)

/-- C6: from a fresh, well-formed, quiet state, set_pixel(x, y, rgb, uid)
succeeds and a following get_pixels returns the old board with exactly the
3 bytes at offset y*width*3 + x*3 replaced by rgb (every other byte
unchanged); the history row was appended. -/
theorem set_pixel_round_trip (w h fuel : Nat) (m : Machine)
    (x y uid : Nat) (rgb : List Nat)
    (hs : m.sched = [])
    (hfresh : m.cache_state.last_modified ≤ m.cache_state.last_synced)
    (hlines : m.lines.length = h) (hunif : ∀ l ∈ m.lines, l.length = 3 * w)
    (hx : x < w) (hy : y < h) (hrgb : rgb.length = 3) :
    ∃ mF, set_pixelM w h (fuel + 1) m x y rgb uid = some (.ok mF) ∧
      mF.lines =
        m.lines.set y (spliceAt (3 * x) (3 * x + 3) rgb (m.lines.getD y [])) ∧
      mF.history = m.history ++ [HistRec.mk x y rgb uid false] ∧
      get_pixels_bytes w h mF.lines =
        spliceAt (y * (w * 3) + x * 3) (y * (w * 3) + x * 3 + 3) rgb
          (get_pixels_bytes w h m.lines) ∧
      ((get_pixels_bytes w h mF.lines).drop (y * (w * 3) + x * 3)).take 3 =
        rgb ∧
      (∀ i : Nat, i < y * (w * 3) + x * 3 ∨ y * (w * 3) + x * 3 + 3 ≤ i →
        (get_pixels_bytes w h mF.lines).getD i 0 =
          (get_pixels_bytes w h m.lines).getD i 0) := by
  obtain ⟨⟨lm, ls, lk⟩, proj, hist, lines, time, sched, rr, trace⟩ := m
  dsimp only at hs hfresh hlines hunif ⊢
  subst hs
  have hylen : y < lines.length := by omega
  have hLylen : (lines.getD y []).length = 3 * w := by
    rw [List.getD_eq_getElem lines [] hylen]
    exact hunif _ (List.getElem_mem hylen)
  have hline2len :
      (spliceAt (3 * x) (3 * x + 3) rgb (lines.getD y [])).length = 3 * w := by
    have hsl := spliceAt_length (3 * x) rgb (lines.getD y []) (by omega)
    rw [hrgb] at hsl
    rw [hsl, hLylen]
  have hsetlen :
      (lines.set y
        (spliceAt (3 * x) (3 * x + 3) rgb (lines.getD y []))).length = h := by
    rw [List.length_set]
    exact hlines
  have hsetunif : ∀ l ∈ lines.set y
      (spliceAt (3 * x) (3 * x + 3) rgb (lines.getD y [])), l.length = 3 * w := by
    intro l hl
    rcases List.mem_or_eq_of_mem_set hl with hmem | heq
    · exact hunif l hmem
    · rw [heq]
      exact hline2len
  have hAeq : get_pixels_bytes w h
        (lines.set y (spliceAt (3 * x) (3 * x + 3) rgb (lines.getD y []))) =
      spliceAt (y * (w * 3) + x * 3) (y * (w * 3) + x * 3 + 3) rgb
        (get_pixels_bytes w h lines) := by
    rw [get_pixels_bytes_eq_flatten w h _ hsetlen hsetunif,
      get_pixels_bytes_eq_flatten w h lines hlines hunif]
    exact set_line_flatten w lines y x rgb hylen hx hrgb hunif
  have hflatlen : (get_pixels_bytes w h lines).length = w * h * 3 := by
    rw [get_pixels_bytes_eq_flatten w h lines hlines hunif,
      length_join_uniform (3 * w) lines hunif, hlines]
    ring
  have hoffb : y * (w * 3) + x * 3 + 3 ≤ w * h * 3 := by nlinarith
  have hbytes := spliceAt_bytes (y * (w * 3) + x * 3) rgb
    (get_pixels_bytes w h lines) hrgb (by omega)
  have heval : set_pixelM w h (fuel + 1)
      (Machine.mk (CacheState.mk lm ls lk) proj hist lines time [] rr trace)
      x y rgb uid =
      some (.ok (Machine.mk (CacheState.mk time time lk) proj
        (hist ++ [HistRec.mk x y rgb uid false])
        (lines.set y (spliceAt (3 * x) (3 * x + 3) rgb (lines.getD y [])))
        time [] rr
        (trace ++ [Op.readCacheState, Op.redisGet y, Op.insertHistory,
          Op.redisSet y, Op.setLastSynced]))) := by
    rw [set_pixelM, syncCacheM_fresh w h fuel false _ rfl (by simpa using hfresh)]
    simp [tr, envStep, setLastSyncedOp]
  exact ⟨_, heval, rfl, rfl, hAeq, hAeq ▸ hbytes.1,
    fun i hi => hAeq ▸ hbytes.2 i hi⟩

/-- A sync pass on a stale cache with a free lock whose rebuild batch has a
failing write: the IOError surfaces, the lock is still released by the
finally block, and last_synced is left untouched. -/
theorem syncCacheM_stale_free_fail (w h fuel : Nat) (m : Machine)
    (flags : List Bool) (hs : m.sched = []) (hr : m.redisResults = [flags])
    (hf : flags.all (fun b => b) = false)
    (hstale : m.cache_state.last_synced < m.cache_state.last_modified)
    (hfree : m.cache_state.sync_lock = none) :
    syncCacheM w h (fuel + 1) false m =
      some (.err
        { m with
          cache_state :=
            { last_modified := m.cache_state.last_modified,
              last_synced := m.cache_state.last_synced, sync_lock := none },
          lines := applyBatch h m.lines (populateLines w h m.projection) flags,
          redisResults := [],
          trace := m.trace ++ [Op.readCacheState, Op.acquireLock none] ++
            rebuildOps h ++ [Op.releaseLock] }) := by
  obtain ⟨⟨lm, ls, lk⟩, proj, hist, lines, time, sched, rr, trace⟩ := m
  dsimp only at hs hr hstale hfree
  subst hs
  subst hr
  subst hfree
  rw [syncCacheM, is_cache_out_of_dateOp_nil _ rfl]
  simp only [decide_eq_true (show lm > ls from hstale), if_true]
  rw [try_acquireOp_nil _ rfl]
  simp only [Option.isNone_none, Bool.true_or, if_true]
  rw [populateOp_fail _ _ _ flags rfl rfl hf]
  simp only
  rw [releaseOp_nil _ rfl]
  simp [tr, rebuildOps]

/-- C7: if any write of the rebuild batch fails, sync_cache surfaces the
I/O error, last_synced is left stale (so the next sync retries the full
rebuild) and no setLastSynced operation was performed; last_synced is
advanced (to now, after the batched writes) only when the whole batch
succeeded. -/
theorem rebuild_failure_atomicity (w h fuelF fuelS : Nat) (mF mS : Machine)
    (flags : List Bool)
    (hsF : mF.sched = []) (hrF : mF.redisResults = [flags])
    (hfF : flags.all (fun b => b) = false)
    (hstaleF : mF.cache_state.last_synced < mF.cache_state.last_modified)
    (hfreeF : mF.cache_state.sync_lock = none)
    (hsS : mS.sched = []) (hrS : mS.redisResults = [])
    (hstaleS : mS.cache_state.last_synced < mS.cache_state.last_modified)
    (hfreeS : mS.cache_state.sync_lock = none)
    (hlmS : mS.cache_state.last_modified ≤ mS.time) :
    (∃ mE, syncCacheM w h (fuelF + 1) false mF = some (.err mE) ∧
      mE.cache_state.last_synced = mF.cache_state.last_synced ∧
      mE.cache_state.last_synced < mE.cache_state.last_modified ∧
      Op.setLastSynced ∉ mE.trace.drop mF.trace.length) ∧
    (∃ mOk, syncCacheM w h (fuelS + 2) false mS = some (.ok mOk) ∧
      mOk.cache_state.last_synced = mS.time ∧
      mOk.trace = mS.trace ++ syncPassOps h) := by
  constructor
  · refine ⟨_, syncCacheM_stale_free_fail w h fuelF mF flags hsF hrF hfF
      hstaleF hfreeF, rfl, hstaleF, ?_⟩
    rw [List.append_assoc, List.append_assoc, List.drop_left]
    simp [rebuildOps]
  · refine ⟨_, syncCacheM_stale_free w h fuelS mS hsS hrS hstaleS hfreeS
      hlmS, rfl, rfl⟩

theorem rebuild_failure_atomicity_witness :
    (∃ mE, syncCacheM 2 2 (3 + 1) false staleFailMachine = some (.err mE) ∧
      mE.cache_state.last_synced = staleFailMachine.cache_state.last_synced ∧
      mE.cache_state.last_synced < mE.cache_state.last_modified ∧
      Op.setLastSynced ∉ mE.trace.drop staleFailMachine.trace.length) ∧
    (∃ mOk, syncCacheM 2 2 (3 + 2) false staleOkMachine = some (.ok mOk) ∧
      mOk.cache_state.last_synced = staleOkMachine.time ∧
      mOk.trace = staleOkMachine.trace ++ syncPassOps 2) :=
  rebuild_failure_atomicity 2 2 3 3 staleFailMachine staleOkMachine
    [false, true] rfl rfl (by decide) (by decide) rfl rfl rfl (by decide) rfl
    (by decide)

/-- C3: on a state needing synchronization (last_modified > last_synced),
the board read first runs the sync step — which rebuilds every line and
advances last_synced — and only then performs the h line reads (the trace
lists the whole sync pass strictly before the redis reads); the returned
buffer is the concatenation of the h rebuilt row buffers, width*height*3
bytes long. -/
theorem get_pixels_endpoint_syncs_first (w h fuel : Nat) (m : Machine)
    (hs : m.sched = []) (hr : m.redisResults = [])
    (hstale : m.cache_state.last_synced < m.cache_state.last_modified)
    (hfree : m.cache_state.sync_lock = none)
    (hlm : m.cache_state.last_modified ≤ m.time)
    (hu : ∀ r ∈ m.projection, r.rgb.length = 3) :
    ∃ mR, get_pixels_endpoint w h (fuel + 2) m =
        some (.ok ((populateLines w h m.projection).flatten) mR) ∧
      mR.lines = populateLines w h m.projection ∧
      mR.cache_state.last_synced = m.time ∧
      mR.cache_state.last_modified ≤ mR.cache_state.last_synced ∧
      mR.trace = m.trace ++ syncPassOps h ++ (List.range h).map Op.redisGet ∧
      ((populateLines w h m.projection).flatten).length = w * h * 3 := by
  have hpl : (populateLines w h m.projection).length = h :=
    populateLines_length w h m.projection
  have hpu : ∀ l ∈ populateLines w h m.projection, l.length = 3 * w :=
    populateLines_lengths w h m.projection hu
  have hflat : get_pixels_bytes w h (populateLines w h m.projection) =
      (populateLines w h m.projection).flatten :=
    get_pixels_bytes_eq_flatten w h _ hpl hpu
  have hlen : ((populateLines w h m.projection).flatten).length = w * h * 3 := by
    rw [length_join_uniform (3 * w) _ hpu, hpl]
    ring
  have hsync := syncCacheM_stale_free w h fuel m hs hr hstale hfree hlm
  have heval : get_pixels_endpoint w h (fuel + 2) m =
      some (.ok ((populateLines w h m.projection).flatten)
        ({ m with
           cache_state :=
             { last_modified := m.cache_state.last_modified,
               last_synced := m.time, sync_lock := none },
           lines := populateLines w h m.projection,
           trace := (m.trace ++ syncPassOps h) ++
             (List.range h).map Op.redisGet })) := by
    rw [get_pixels_endpoint, hsync]
    simp only
    rw [get_pixelsM, get_pixelsM_fold w]
    simp only
    rw [get_pixels_bytes] at hflat
    rw [hflat]
  exact ⟨_, heval, rfl, rfl, hlm, by simp [List.append_assoc], hlen⟩

theorem get_pixels_endpoint_syncs_first_witness :
    ∃ mR, get_pixels_endpoint 2 2 (1 + 2) staleOkMachine =
        some (.ok ((populateLines 2 2 staleOkMachine.projection).flatten) mR) ∧
      mR.lines = populateLines 2 2 staleOkMachine.projection ∧
      mR.cache_state.last_synced = staleOkMachine.time ∧
      mR.cache_state.last_modified ≤ mR.cache_state.last_synced ∧
      mR.trace = staleOkMachine.trace ++ syncPassOps 2 ++
        (List.range 2).map Op.redisGet ∧
      ((populateLines 2 2 staleOkMachine.projection).flatten).length =
        2 * 2 * 3 :=
  get_pixels_endpoint_syncs_first 2 2 1 staleOkMachine rfl rfl (by decide)
    rfl (by decide) (by decide)

theorem set_pixel_round_trip_witness :
    ∃ mF, set_pixelM 2 2 (0 + 1) sampleMachine 1 1 [7, 7, 7] 3 =
        some (.ok mF) ∧
      mF.lines = sampleMachine.lines.set 1
        (spliceAt (3 * 1) (3 * 1 + 3) [7, 7, 7]
          (sampleMachine.lines.getD 1 [])) ∧
      mF.history = sampleMachine.history ++ [HistRec.mk 1 1 [7, 7, 7] 3 false] ∧
      get_pixels_bytes 2 2 mF.lines =
        spliceAt (1 * (2 * 3) + 1 * 3) (1 * (2 * 3) + 1 * 3 + 3) [7, 7, 7]
          (get_pixels_bytes 2 2 sampleMachine.lines) ∧
      ((get_pixels_bytes 2 2 mF.lines).drop (1 * (2 * 3) + 1 * 3)).take 3 =
        [7, 7, 7] ∧
      (∀ i : Nat, i < 1 * (2 * 3) + 1 * 3 ∨ 1 * (2 * 3) + 1 * 3 + 3 ≤ i →
        (get_pixels_bytes 2 2 mF.lines).getD i 0 =
          (get_pixels_bytes 2 2 sampleMachine.lines).getD i 0) :=
  set_pixel_round_trip 2 2 0 sampleMachine 1 1 3 [7, 7, 7] rfl (by decide)
    (by decide) (by decide) (by decide) (by decide) (by decide)

/-- An immediately successful reclaim: the lock is older than KEY_TIMEOUT,
so the conditional update wins and the extra unconditional update follows. -/
theorem waitPollM_win_now (f : Nat) (m : Machine) (t : Nat)
    (hs : m.sched = []) (hl : m.cache_state.sync_lock = some t)
    (hold : m.time - t > KEY_TIMEOUT) :
    waitPollM (f + 1) m = some (true,
      { m with cache_state := { m.cache_state with sync_lock := some m.time },
               trace := m.trace ++
                 [Op.readCacheState, Op.reclaimTry true, Op.setLockNow] }) := by
  obtain ⟨⟨lm, ls, lk⟩, proj, hist, lines, time, sched, rr, trace⟩ := m
  dsimp only at hs hl hold
  subst hs
  subst hl
  rw [waitPollM, readCacheStateOp_nil _ rfl]
  simp only
  rw [reclaimCondOp_nil_old _ t rfl rfl (by simpa using hold)]
  simp only [if_true]
  rw [setLockNowOp_nil _ rfl]
  simp [tr]

/-- A failed poll iteration: the lock is observed but still young, so the
conditional update affects no row and the caller sleeps 100 ms. -/
theorem waitPollM_step_young (f : Nat) (m : Machine) (t : Nat)
    (hs : m.sched = []) (hl : m.cache_state.sync_lock = some t)
    (hyoung : ¬ m.time - t > KEY_TIMEOUT) :
    waitPollM (f + 1) m = waitPollM f
      { m with time := m.time + 100,
               trace := m.trace ++ [Op.readCacheState, Op.reclaimTry false] } := by
  obtain ⟨⟨lm, ls, lk⟩, proj, hist, lines, time, sched, rr, trace⟩ := m
  dsimp only at hs hl hyoung
  subst hs
  subst hl
  rw [waitPollM, readCacheStateOp_nil _ rfl]
  simp only
  rw [reclaimCondOp_nil_young _ t rfl rfl (by simpa using hyoung)]
  simp [tr]

/-- A waiter polling a lock that its owner never releases reclaims it once
its age exceeds KEY_TIMEOUT: within k+1 iterations, provided the age bound
is reached by then, the poll returns Reclaimed with the lock re-stamped to
the waiter's own now; everything else in the state is untouched. -/
theorem waitPollM_reclaims :
    ∀ (k fuel : Nat) (m : Machine) (t : Nat),
      m.sched = [] → m.cache_state.sync_lock = some t →
      m.time + 100 * k > t + KEY_TIMEOUT → k < fuel →
      ∃ m2, waitPollM fuel m = some (true, m2) ∧
        m2.sched = [] ∧ m2.redisResults = m.redisResults ∧
        m2.projection = m.projection ∧ m2.lines = m.lines ∧
        m2.history = m.history ∧
        m2.cache_state.last_modified = m.cache_state.last_modified ∧
        m2.cache_state.last_synced = m.cache_state.last_synced ∧
        m2.cache_state.sync_lock = some m2.time ∧
        m.time ≤ m2.time ∧
        Op.reclaimTry true ∈ m2.trace := by
  intro k
  induction k with
  | zero =>
    intro fuel m t hs hl hage hfuel
    obtain ⟨f, rfl⟩ : ∃ f, fuel = f + 1 := ⟨fuel - 1, by omega⟩
    rw [waitPollM_win_now f m t hs hl (by omega)]
    exact ⟨_, rfl, hs, rfl, rfl, rfl, rfl, rfl, rfl, rfl, Nat.le_refl _,
      by simp⟩
  | succ k ih =>
    intro fuel m t hs hl hage hfuel
    obtain ⟨f, rfl⟩ : ∃ f, fuel = f + 1 := ⟨fuel - 1, by omega⟩
    by_cases hold : m.time - t > KEY_TIMEOUT
    · rw [waitPollM_win_now f m t hs hl hold]
      exact ⟨_, rfl, hs, rfl, rfl, rfl, rfl, rfl, rfl, rfl, Nat.le_refl _,
        by simp⟩
    · rw [waitPollM_step_young f m t hs hl hold]
      obtain ⟨m2, heq, h1, h2, h3, h4, h5, h6, h7, h8, h9, h10⟩ :=
        ih f ({ m with
                time := m.time + 100,
                trace := m.trace ++ [Op.readCacheState, Op.reclaimTry false] })
          t hs hl (show m.time + 100 + 100 * k > t + KEY_TIMEOUT by omega)
          (by omega)
      have h9' : m.time + 100 ≤ m2.time := h9
      exact ⟨m2, heq, h1, h2, h3, h4, h5, h6, h7, h8,
        le_trans (Nat.le_add_right _ _) h9', h10⟩

/-- A sync loop iteration entered with lock_cleared = true on a stale
cache: try_acquire re-stamps the lock and fails, but the won reclaim lets
the rebuild proceed; the pass rebuilds, advances last_synced, releases the
lock and re-checks. -/
theorem syncCacheM_stale_cleared (w h fuel : Nat) (m : Machine)
    (hs : m.sched = []) (hr : m.redisResults = [])
    (hstale : m.cache_state.last_synced < m.cache_state.last_modified)
    (hlm : m.cache_state.last_modified ≤ m.time) :
    syncCacheM w h (fuel + 2) true m =
      some (.ok
        { m with
          cache_state :=
            { last_modified := m.cache_state.last_modified,
              last_synced := m.time, sync_lock := none },
          lines := populateLines w h m.projection,
          trace := m.trace ++
            [Op.readCacheState, Op.acquireLock m.cache_state.sync_lock] ++
            rebuildOps h ++
            [Op.setLastSynced, Op.releaseLock, Op.readCacheState] }) := by
  obtain ⟨⟨lm, ls, lk⟩, proj, hist, lines, time, sched, rr, trace⟩ := m
  dsimp only at hs hr hstale hlm
  subst hs
  subst hr
  rw [show fuel + 2 = (fuel + 1) + 1 from rfl, syncCacheM,
    is_cache_out_of_dateOp_nil _ rfl]
  simp only [decide_eq_true (show lm > ls from hstale), if_true]
  rw [try_acquireOp_nil _ rfl]
  simp only [Bool.or_true, if_true]
  rw [populateOp_quiet _ _ _ rfl rfl]
  simp only
  rw [setLastSyncedOp_nil _ rfl, releaseOp_nil _ rfl]
  simp only [tr]
  rw [syncCacheM_fresh w h fuel false _ rfl (by simpa using hlm)]
  simp [tr, rebuildOps, List.append_assoc]

/-- C8: when the lock is held by an owner that never releases it and the
environment is otherwise quiet, a sync() caller does not wait forever: its
failed try_acquire re-stamps the lock, it polls until the observed age
exceeds KEY_TIMEOUT, wins the conditional reclaim (row count one), becomes
the owner and performs the rebuild; and a reclaim can only ever be won
against a lock strictly older than KEY_TIMEOUT. -/
theorem deadlock_recovery (w h fuel t0 : Nat) (m : Machine)
    (hs : m.sched = []) (hr : m.redisResults = [])
    (hstale : m.cache_state.last_synced < m.cache_state.last_modified)
    (hheld : m.cache_state.sync_lock = some t0)
    (hlm : m.cache_state.last_modified ≤ m.time)
    (hfuel : 105 ≤ fuel) :
    (∃ mF, syncCacheM w h fuel false m = some (.ok mF) ∧
      Op.reclaimTry true ∈ mF.trace ∧
      mF.lines = populateLines w h m.projection ∧
      mF.cache_state.sync_lock = none ∧
      m.cache_state.last_synced < mF.cache_state.last_synced) ∧
    (∀ m' : Machine, m'.sched = [] → (reclaimCondOp m').1 = true →
      ∃ t, m'.cache_state.sync_lock = some t ∧ t + KEY_TIMEOUT < m'.time) := by
  constructor
  · obtain ⟨⟨lm, ls, lk⟩, proj, hist, lines, time, sched, rr, trace⟩ := m
    dsimp only at hs hr hstale hheld hlm ⊢
    subst hs
    subst hr
    subst hheld
    obtain ⟨f, rfl⟩ : ∃ f, fuel = f + 1 := ⟨fuel - 1, by omega⟩
    have hmA : (try_acquireOp (tr (Machine.mk (CacheState.mk lm ls (some t0))
        proj hist lines time [] [] trace) .readCacheState)) =
        (false, Machine.mk (CacheState.mk lm ls (some time)) proj hist lines
          time [] [] (trace ++ [Op.readCacheState, Op.acquireLock (some t0)])) := by
      rw [try_acquireOp_nil _ rfl]
      simp [tr]
    obtain ⟨m2, heq, h1, h2, h3, h4, h5, h6, h7, h8, h9, h10⟩ :=
      waitPollM_reclaims 101 f
        (Machine.mk (CacheState.mk lm ls (some time)) proj hist lines
          time [] [] (trace ++ [Op.readCacheState, Op.acquireLock (some t0)]))
        time rfl rfl (by simp only [KEY_TIMEOUT]; omega) (by omega)
    have hrun : syncCacheM w h (f + 1) false
        (Machine.mk (CacheState.mk lm ls (some t0)) proj hist lines time [] []
          trace) = syncCacheM w h f true m2 := by
      rw [syncCacheM, is_cache_out_of_dateOp_nil _ rfl]
      simp only [decide_eq_true (show lm > ls from hstale), if_true]
      rw [hmA]
      simp only [Bool.or_false, Bool.false_eq_true, if_false]
      rw [heq]
    obtain ⟨f2, rfl⟩ : ∃ f2, f = f2 + 2 := ⟨f - 2, by omega⟩
    dsimp only at h1 h2 h3 h4 h5 h6 h7 h9
    have hfinal := syncCacheM_stale_cleared w h f2 m2 h1 (by rw [h2])
      (by rw [h7, h6]; exact hstale) (by rw [h6]; omega)
    refine ⟨_, hrun.trans hfinal, ?_, ?_, rfl, ?_⟩
    · exact List.mem_append.mpr (Or.inl (List.mem_append.mpr
        (Or.inl (List.mem_append.mpr (Or.inl h10)))))
    · rw [h3]
    · show ls < m2.time
      omega
  · intro m' hs' hw
    obtain ⟨t, hlock, hage⟩ := reclaimCondOp_won_old m' hs' hw
    exact ⟨t, hlock, by omega⟩

theorem deadlock_recovery_witness :
    (∃ mF, syncCacheM 2 2 105 false staleHeldMachine = some (.ok mF) ∧
      Op.reclaimTry true ∈ mF.trace ∧
      mF.lines = populateLines 2 2 staleHeldMachine.projection ∧
      mF.cache_state.sync_lock = none ∧
      staleHeldMachine.cache_state.last_synced <
        mF.cache_state.last_synced) ∧
    (∀ m' : Machine, m'.sched = [] → (reclaimCondOp m').1 = true →
      ∃ t, m'.cache_state.sync_lock = some t ∧ t + KEY_TIMEOUT < m'.time) :=
  deadlock_recovery 2 2 105 0 staleHeldMachine rfl rfl (by decide) rfl
    (by decide) (by decide)

set_option maxRecDepth 100000

/-- C4 fails on the code: running sync_cache from leakStart — a stale cache
whose lock was abandoned by a crashed owner, with one concurrent
last_synced advance landing between the won reclaim and the staleness
re-check — returns normally (ok), the trace contains the won reclaim
(ownership) and no releaseLock operation, and sync_lock is still set when
sync_cache returns: the reclaim path has no guaranteed-cleanup release. -/
theorem sync_cache_leaks_reclaimed_lock :
    leakCheck (syncCacheM 1 1 300 false leakStart) = true := by
  decide

end Pixels
